import Mathlib

/-!
Verification of the robust two-pass company scraper
(`yc_scraper_robust.py`).

The Python source is shallowly embedded: pure string manipulation is
translated to Lean functions on `String` / `List Char`; the browser
environment (anchor texts, hrefs, page heights, detail-page extraction
outcomes) is passed in explicitly as data; the scroll loop, Pass 1 and
Pass 2 become functions over that data.  Timestamps (`scraped_at`) and
the checkpoint writer perform I/O only and are omitted from the record
model; no claim mentions them.
-/

set_option maxRecDepth 65536

namespace YCRobust

/-- Substring test on character lists: Python's `pat in s`. -/
def containsChars (pat : List Char) : List Char → Bool
  | [] => pat.isEmpty
  | c :: rest => pat.isPrefixOf (c :: rest) || containsChars pat rest

/-- Python `pat in s` for strings. -/
def containsSub (s pat : String) : Bool := containsChars pat.data s.data

/-- Python `s.lower()`. -/
def toLowerStr (s : String) : String := ⟨s.data.map Char.toLower⟩

/-- Python `s.startswith(pre)`. -/
def startsWithStr (s pre : String) : Bool := pre.data.isPrefixOf s.data

/-- Python `s.endswith(suf)`. -/
def endsWithStr (s suf : String) : Bool := suf.data.reverse.isPrefixOf s.data.reverse

/-- `s[n:]` for an `n` not exceeding the length. -/
def dropStr (s : String) (n : Nat) : String := ⟨s.data.drop n⟩

/-- Python `s.strip()`: whitespace removed at both ends. -/
def pyStrip (s : String) : String :=
  ⟨((s.data.dropWhile Char.isWhitespace).reverse.dropWhile Char.isWhitespace).reverse⟩

/-- Split a character list at every character satisfying `p`. -/
def splitChars (p : Char → Bool) : List Char → List (List Char)
  | [] => [[]]
  | c :: rest =>
    if p c then [] :: splitChars p rest
    else
      match splitChars p rest with
      | [] => [[c]]
      | g :: gs => (c :: g) :: gs

/-- Split a string at every character satisfying `p` (the empty pieces
produced by adjacent separators are filtered out by every caller, which
makes this agree with `re.split(r'[\n\r]+', ...)`). -/
def splitStr (s : String) (p : Char → Bool) : List String :=
  (splitChars p s.data).map (fun l => ⟨l⟩)

/-- Python `sep.join(xs)`. -/
def joinSep (sep : String) : List String → String
  | [] => ""
  | [x] => x
  | x :: xs => x ++ sep ++ joinSep sep xs

/-- Python `s.rstrip('/')` on a character list: drop every trailing slash. -/
def rstripSlashChars (l : List Char) : List Char :=
  (l.reverse.dropWhile (fun c => c = '/')).reverse

/-- Python `s.rstrip('/')`. -/
def pyRstripSlash (s : String) : String := ⟨rstripSlashChars s.data⟩

/-- Python `s.lstrip('/')`. -/
def pyLstripSlash (s : String) : String := ⟨s.data.dropWhile (fun c => c = '/')⟩

/-- Whether `[#?].*$` (with Python semantics: `.` does not cross a
newline, `$` matches at the end or just before one final newline)
matches at a position whose following characters are `tail`; on a match,
returns the characters that survive the deletion. -/
def hashQueryTail (tail : List Char) : Option (List Char) :=
  if '\n' ∉ tail then some []
  else if tail.getLast? = some '\n' ∧ '\n' ∉ tail.dropLast then some ['\n']
  else none

/-- Python `re.sub(r"[#?].*$", "", s)` on the character list: delete
from the leftmost `#` or `?` at which the pattern matches. -/
def stripHashQueryChars : List Char → List Char
  | [] => []
  | c :: rest =>
    if c = '#' ∨ c = '?' then
      match hashQueryTail rest with
      | some keep => keep
      | none => c :: stripHashQueryChars rest
    else c :: stripHashQueryChars rest

/-- Python `re.sub(r"[#?].*$", "", s)` (the same character class is
written `[?#]` in the founder URL normalizer). -/
def stripHashQuery (s : String) : String := ⟨stripHashQueryChars s.data⟩

/-- Python `s.replace(pat, rep)`: every occurrence, scanning left to
right, non-overlapping.  The fuel argument (instantiated with the list
length, which never runs out because a non-empty match consumes at
least one character) keeps the recursion structural. -/
def replaceCharsAux (pat rep : List Char) : Nat → List Char → List Char
  | _, [] => []
  | 0, l => l
  | fuel + 1, c :: rest =>
    if pat ≠ [] ∧ pat.isPrefixOf (c :: rest) then
      rep ++ replaceCharsAux pat rep fuel ((c :: rest).drop pat.length)
    else c :: replaceCharsAux pat rep fuel rest

/-- Python `s.replace(pat, rep)`. -/
def replaceStr (s pat rep : String) : String :=
  ⟨replaceCharsAux pat.data rep.data s.data.length s.data⟩

/-- Python `re.sub(r'\s+', ' ', s)`: collapse every whitespace run into
a single space (`prevWs` records whether the previous character was
whitespace). -/
def collapseWsChars (prevWs : Bool) : List Char → List Char
  | [] => []
  | c :: rest =>
    if c.isWhitespace then
      if prevWs then collapseWsChars true rest else ' ' :: collapseWsChars true rest
    else c :: collapseWsChars false rest

/-! ## URL normalization and the strict record-path pattern -/

/-- The listing site origin used to absolutize relative hrefs. -/
def ycOrigin : String := "https://www.ycombinator.com"

/-- The fixed path prefix of a company detail page. -/
def ycCompaniesPre : String := "https://www.ycombinator.com/companies/"

/-- Character class `[a-z0-9\-]`. -/
def isSlugChar (c : Char) : Bool :=
  ('a' ≤ c && c ≤ 'z') || ('0' ≤ c && c ≤ '9') || c = '-'

/-- `https://www\.ycombinator\.com/companies/[a-z0-9\-]+` matching the
whole character list. -/
def strictCoreChars (l : List Char) : Bool :=
  ycCompaniesPre.data.isPrefixOf l &&
    (decide (l.drop ycCompaniesPre.data.length ≠ []) &&
      (l.drop ycCompaniesPre.data.length).all isSlugChar)

/-- Python `re.match(r"^https://www\.ycombinator\.com/companies/[a-z0-9\-]+$", s)`
(line 253): `$` also matches just before one final newline. -/
def strictCompanyUrlChars (l : List Char) : Bool :=
  strictCoreChars (if l.getLast? = some '\n' then l.dropLast else l)

/-- The strict company-profile pattern of Pass 1 (line 253). -/
def strictCompanyUrl (s : String) : Bool := strictCompanyUrlChars s.data

/-- Pass-1 URL normalization (lines 248-250): absolutize a relative
href against the origin, strip query string and fragment, strip
trailing slashes. -/
def normalizeFP (h : String) : String :=
  pyRstripSlash (stripHashQuery (if startsWithStr h "/" then ycOrigin ++ h else h))

/-- The spec's `normalize(rawHref) -> identityKey | reject`, as Pass 1
implements it (lines 247-255): normalization followed by the strict
pattern filter. -/
def normalizeAccept (h : String) : Option String :=
  if strictCompanyUrl (normalizeFP h) then some (normalizeFP h) else none

/-- Python `re.match(r"^https://www\.ycombinator\.com/companies/[a-z0-9\-]+/?$", s)`
(line 110): as `strictCompanyUrlChars` but with one optional trailing
slash before the end. -/
def listingUrlOkChars (l : List Char) : Bool :=
  strictCoreChars
    (let l1 := if l.getLast? = some '\n' then l.dropLast else l
     if l1.getLast? = some '/' then l1.dropLast else l1)

/-- The listing-collection pattern (line 110). -/
def listingUrlOk (s : String) : Bool := listingUrlOkChars s.data

/-- One raw anchor href of the listing page through lines 102-111:
skip missing/empty hrefs, absolutize, keep only strict company-profile
links, strip trailing slashes. -/
def listingAcceptNorm (o : Option String) : Option String :=
  match o with
  | none => none
  | some h =>
    if h = "" then none
    else
      if listingUrlOk (if startsWithStr h "/" then ycOrigin ++ h else h) then
        some (pyRstripSlash (if startsWithStr h "/" then ycOrigin ++ h else h))
      else none

/-- Lexicographic comparison of character lists by code point, the
order Python uses to compare strings. -/
def ltChars : List Char → List Char → Bool
  | [], [] => false
  | [], _ :: _ => true
  | _ :: _, [] => false
  | a :: as, b :: bs =>
    if a.toNat < b.toNat then true
    else if a.toNat = b.toNat then ltChars as bs
    else false

/-- Python `a < b` on strings. -/
def ltStr (a b : String) : Bool := ltChars a.data b.data

/-- Insert into a strictly increasing list, dropping duplicates. -/
def insertNoDup (x : String) : List String → List String
  | [] => [x]
  | y :: ys =>
    if x = y then y :: ys
    else if ltStr x y then x :: y :: ys
    else y :: insertNoDup x ys

/-- Python `sorted(set(l))`: the distinct elements in increasing
lexicographic order. -/
def sortedSet (l : List String) : List String := l.foldr insertNoDup []

/-- Lines 100-113 of `scrape_companies`: collect the anchor hrefs,
absolutize and filter them, then `unique_hrefs = sorted(set(hrefs))`.
(The subsequent re-query of one element per unique href, lines 115-119,
only recovers element handles for these hrefs in this same order.) -/
def collectListingLinks (raws : List (Option String)) : List String :=
  sortedSet (raws.filterMap listingAcceptNorm)

/-- First-occurrence deduplication relative to an initial seen-set:
keeps each key's first occurrence, in input order. -/
def dedupKF (seen : Finset String) : List String → List String
  | [] => []
  | u :: rest => if u ∈ seen then dedupKF seen rest else u :: dedupKF (insert u seen) rest

/-- Modelled from the spec: "Deduplication is by exact identityKey
equality in a set; the first occurrence wins and establishes the
Record's position in processing order (stable, insertion-ordered)."
The accepted links of the listing page deduplicated in discovery
order.  This follows the spec's words, for comparison with
`collectListingLinks`, which the source builds with `sorted(set(...))`. -/
def specDiscoveryOrderLinks (raws : List (Option String)) : List String :=
  dedupKF ∅ (raws.filterMap listingAcceptNorm)

/-! ## The record model and Pass 1 -/

/-- A founder entry: `{ 'name': str, 'linkedin_url': str }`. -/
structure Founder where
  name : String
  linkedin_url : String
deriving DecidableEq

/-- One record of the scraper's `self.companies` list (the `scraped_at`
timestamp field is environment I/O and is omitted). -/
structure Company where
  name : String
  description : String
  url : String
  categories : String
  founders : List Founder
  summary : String
deriving DecidableEq

/-- The spec's status abstraction for a record: `Captured` on creation
in Pass 1, then exactly one enrichment attempt in Pass 2 ends in
`Enriched` (the extraction step returned data) or `EnrichmentFailed`
(the extraction step caught an exception and returned sentinels). -/
inductive Status where
  | Captured
  | Enriched
  | EnrichmentFailed
deriving DecidableEq

/-- The category keyword list of `_extract_basic_info` (lines 379-384). -/
def categoryKeywords : List String :=
  ["AI", "ML", "SaaS", "B2B", "Enterprise", "Fintech", "Healthtech",
   "Edtech", "E-commerce", "Mobile", "Web", "API", "Analytics", "Security",
   "Cloud", "DevOps", "Marketing", "Sales", "HR", "Legal", "Real Estate",
   "Transportation", "Food", "Fashion", "Gaming", "Media", "Entertainment"]

/-- `_extract_basic_info` (lines 351-391): name = first nonempty line
of the stripped text, categories = the keywords occurring
case-insensitively in the text, joined by ", ". -/
def extractBasicInfo (text : String) : String × String :=
  if text = "" then ("", "")
  else
    let t := pyStrip text
    let parts := ((splitStr t (fun c => c == '\n' || c == '\r')).map pyStrip).filter (fun p => p != "")
    match parts with
    | [] => (t, "")
    | nm :: _ =>
      (nm, joinSep ", " (categoryKeywords.filter (fun k => containsSub (toLowerStr t) (toLowerStr k))))

/-- The navigation-label denylist of Pass 1 (line 235). -/
def navLabels : List String := ["founder directory", "companies", "about", "contact"]

/-- One discovered link as Pass 1 sees it: its rendered anchor text
(`text_content()`, possibly null) and its href attribute (possibly
null). -/
structure RawLink where
  text : Option String
  href : Option String

/-- The Pass-1 loop state: the record list, the seen-URL set and the
session counters. -/
structure FPState where
  companies : List Company
  seen : Finset String
  processed : Nat
  skipped : Nat
  errors : Nat

/-- The record skeleton appended by Pass 1 (lines 267-275):
enrichment fields start empty. -/
def mkBasicCompany (text url : String) : Company :=
  { name := (extractBasicInfo text).1
  , description := ""
  , url := url
  , categories := (extractBasicInfo text).2
  , founders := []
  , summary := "" }

/-- One iteration of the Pass-1 loop (lines 228-291).  A null text
raises in the `text[:100]` slice and is caught as an error; navigation
labels, pattern-rejected URLs and already-seen URLs are skipped; an
accepted link appends a record immediately. -/
def firstPassStep (st : FPState) (l : RawLink) : FPState :=
  match l.text with
  | none => { st with errors := st.errors + 1 }
  | some t =>
    if toLowerStr (pyStrip t) ∈ navLabels then { st with skipped := st.skipped + 1 }
    else
      match l.href with
      | none => { st with errors := st.errors + 1 }
      | some h =>
        if h = "" then { st with errors := st.errors + 1 }
        else if strictCompanyUrl (normalizeFP h) then
          if normalizeFP h ∈ st.seen then { st with skipped := st.skipped + 1 }
          else
            { st with
              companies := st.companies ++ [mkBasicCompany t (normalizeFP h)]
            , seen := insert (normalizeFP h) st.seen
            , processed := st.processed + 1 }
        else { st with skipped := st.skipped + 1 }

/-- The initial Pass-1 state (lines 223-227). -/
def firstPassInit : FPState :=
  { companies := [], seen := ∅, processed := 0, skipped := 0, errors := 0 }

/-- `_first_pass_capture_all` (lines 214-296) over the link list. -/
def firstPass (links : List RawLink) : FPState := links.foldl firstPassStep firstPassInit

/-- The accepted, normalized identity key of one raw link: `some u`
exactly when Pass 1 would reach the dedup check with normalized URL
`u` (non-null text, not a navigation label, non-empty href, strict
pattern accepted). -/
def acceptedUrl (l : RawLink) : Option String :=
  match l.text with
  | none => none
  | some t =>
    if toLowerStr (pyStrip t) ∈ navLabels then none
    else
      match l.href with
      | none => none
      | some h =>
        if h = "" then none
        else if strictCompanyUrl (normalizeFP h) then some (normalizeFP h)
        else none

/-! ## Pass 2: chunked enrichment -/

/-- The three detail-page fields produced by a successful run of the
body of `_extract_detailed_data` (lines 405-439). -/
structure DetailData where
  description : String
  founders : List Founder
  summary : String
deriving DecidableEq

/-- The sentinel data returned by the exception handler of
`_extract_detailed_data` (lines 441-448). -/
def notAvailableData : DetailData :=
  { description := "Description not available", founders := [], summary := "Summary not available" }

/-- `_extract_detailed_data` (lines 393-448).  The environment `env`
maps a detail-page URL to `some` bundle of extractor outputs when
navigation and extraction succeed, and to `none` when any exception
(timeout, navigation error, extractor error) is raised inside the body;
the function's own `except` clause catches every such exception and
returns the sentinel bundle, so this function is total and the caller
never sees an exception from it. -/
def extractDetailedData (env : String → Option DetailData) (url : String) : DetailData :=
  match env url with
  | some d => d
  | none => notAvailableData

/-- One record's Pass-2 processing (lines 325-340):
`company.update(detailed_data)` overwrites exactly the keys
`description`, `founders`, `summary`; `name`, `url` and `categories`
are untouched.  The status is the spec abstraction: `Enriched` when the
extraction body succeeded, `EnrichmentFailed` when its exception
handler produced the sentinels. -/
def enrichCompany (env : String → Option DetailData) (c : Company) : Company × Status :=
  ({ c with
     description := (extractDetailedData env c.url).description
   , founders := (extractDetailedData env c.url).founders
   , summary := (extractDetailedData env c.url).summary }
  , match env c.url with
    | some _ => Status.Enriched
    | none => Status.EnrichmentFailed)

/-- The Pass-2 accumulators: the processed records with their statuses,
`enriched_count` and `error_count` (lines 310-311).  The `except`
branch of the per-record loop (lines 335-340) would increment
`error_count`, but `_extract_detailed_data` catches every exception
internally, so that branch is unreachable and the counter stays as
initialized. -/
structure Pass2Result where
  records : List (Company × Status)
  enrichedCount : Nat
  errorCount : Nat
deriving DecidableEq

/-- The per-record body of the Pass-2 loop (lines 320-340): the update
always succeeds, so `enriched_count` is incremented on every record,
failed extractions included. -/
def enrichStep (env : String → Option DetailData) (acc : Pass2Result) (c : Company) : Pass2Result :=
  { records := acc.records ++ [enrichCompany env c]
  , enrichedCount := acc.enrichedCount + 1
  , errorCount := acc.errorCount }

/-- `self.companies[start_idx:end_idx]` for chunk `k` (lines 314-316). -/
def chunkSlice (companies : List Company) (cs k : Nat) : List Company :=
  (companies.drop (k * cs)).take (min ((k + 1) * cs) companies.length - k * cs)

/-- Concatenation of the chunk slices at the given chunk indices. -/
def sliceConcat (companies : List Company) (cs : Nat) : List Nat → List Company
  | [] => []
  | k :: ks => chunkSlice companies cs k ++ sliceConcat companies cs ks

/-- `_second_pass_enrich_data` (lines 298-349): the records are
processed in `ceil(n / chunk_size)` chunks, sequentially within each
chunk, accumulating the counters. -/
def secondPassRun (env : String → Option DetailData) (cs : Nat) (companies : List Company) :
    Pass2Result :=
  (List.range ((companies.length + cs - 1) / cs)).foldl
    (fun acc k => (chunkSlice companies cs k).foldl (enrichStep env) acc)
    { records := [], enrichedCount := 0, errorCount := 0 }

/-! ## The scroll convergence loop -/

/-- The scroll-loop configuration values (lines 59-69):
`scroll_timeout` bounds consecutive same-height rounds,
`required_stable_rounds` is hardcoded to 3 (line 168), and
`target_companies` is the early-exit cap (line 205). -/
structure ScrollConfig where
  maxAttempts : Nat
  requiredStableRounds : Nat
  targetCompanies : Nat
deriving DecidableEq

/-- The configuration of the source: `scroll_timeout = 60`,
`required_stable_rounds = 3`, `target_companies = 200`. -/
def defaultScrollConfig : ScrollConfig :=
  { maxAttempts := 60, requiredStableRounds := 3, targetCompanies := 200 }

/-- What the environment yields in one scroll round: the new
`document.body.scrollHeight` and the set of (normalized, per lines
179-188) company hrefs present in the DOM this round.  The href type is
a parameter: the loop's logic does not inspect the hrefs beyond set
membership. -/
structure RoundObs (α : Type) where
  newHeight : Nat
  newHrefs : Finset α

/-- The scroll-loop state (lines 161-168). -/
structure ScrollState (α : Type) where
  lastHeight : Nat
  scrollAttempts : Nat
  seenHrefs : Finset α
  stableRounds : Nat

/-- One round of the loop body (lines 171-207): update the seen set,
bump or reset `stable_rounds` according to whether the unique count
changed, bump or reset `scroll_attempts` according to whether the
height changed; the Boolean is the `curr_count >= target_companies`
break. -/
def scrollStep {α : Type} [DecidableEq α] (cfg : ScrollConfig) (st : ScrollState α)
    (o : RoundObs α) : ScrollState α × Bool :=
  ( { lastHeight := if o.newHeight = st.lastHeight then st.lastHeight else o.newHeight
    , scrollAttempts := if o.newHeight = st.lastHeight then st.scrollAttempts + 1 else 0
    , seenHrefs := st.seenHrefs ∪ o.newHrefs
    , stableRounds :=
        if (st.seenHrefs ∪ o.newHrefs).card = st.seenHrefs.card then st.stableRounds + 1 else 0 }
  , decide (cfg.targetCompanies ≤ (st.seenHrefs ∪ o.newHrefs).card) )

/-- How a run of the scroll loop ended. -/
inductive ScrollExit where
  | converged
  | maxAttemptsReached
  | targetReached
  | pageEnded
deriving DecidableEq

/-- `_scroll_to_load_all` (lines 153-212) driven by a finite trace of
round observations; returns the final state, how the loop exited, and
the number of rounds executed.  The `while` condition is checked
left-to-right: `scroll_attempts < max_attempts` first, then
`stable_rounds < required_stable_rounds`; `pageEnded` marks a trace too
short to reach any exit (the real loop always gets a next observation,
so a finite trace models a finite prefix of the run). -/
def scrollRun {α : Type} [DecidableEq α] (cfg : ScrollConfig) :
    ScrollState α → List (RoundObs α) → ScrollState α × ScrollExit × Nat
  | st, [] =>
    if cfg.maxAttempts ≤ st.scrollAttempts then (st, ScrollExit.maxAttemptsReached, 0)
    else if cfg.requiredStableRounds ≤ st.stableRounds then (st, ScrollExit.converged, 0)
    else (st, ScrollExit.pageEnded, 0)
  | st, o :: rest =>
    if cfg.maxAttempts ≤ st.scrollAttempts then (st, ScrollExit.maxAttemptsReached, 0)
    else if cfg.requiredStableRounds ≤ st.stableRounds then (st, ScrollExit.converged, 0)
    else if (scrollStep cfg st o).2 then ((scrollStep cfg st o).1, ScrollExit.targetReached, 1)
    else
      ((scrollRun cfg (scrollStep cfg st o).1 rest).1,
       (scrollRun cfg (scrollStep cfg st o).1 rest).2.1,
       (scrollRun cfg (scrollStep cfg st o).1 rest).2.2 + 1)

/-- The state at the start of the loop: height as first observed,
counters zero, empty seen set (lines 161-167). -/
def scrollInit : ScrollState Nat :=
  { lastHeight := 0, scrollAttempts := 0, seenHrefs := ∅, stableRounds := 0 }

/-- The seen set after folding a list of round observations into `s`. -/
def accumHrefs {α : Type} [DecidableEq α] (s : Finset α) : List (RoundObs α) → Finset α
  | [] => s
  | o :: rest => accumHrefs (s ∪ o.newHrefs) rest

/-! ## Founder extraction: URL normalization, dedup, cap -/

/-- `_normalize_linkedin_url` (lines 496-517).  Note: despite the
source comment "Lowercase domain, keep path case", no lowercasing is
performed; `re.sub(r'^http://', 'https://', ...)` is the anchored
single replacement, while `str.replace` at the end replaces every
occurrence.  The `try/except` wrapper cannot fire (no operation in the
body raises). -/
def normalizeLinkedinUrl (url : String) : String :=
  if url = "" then ""
  else
    let u1 := pyStrip url
    let u2 := if startsWithStr u1 "//" then "https:" ++ u1 else u1
    let u3 := if startsWithStr u2 "http" then u2 else "https://" ++ pyLstripSlash u2
    let u4 := if startsWithStr u3 "http://" then "https://" ++ dropStr u3 7 else u3
    let u5 := stripHashQuery u4
    let u6 := pyRstripSlash u5
    replaceStr u6 "https://linkedin.com" "https://www.linkedin.com"

/-- The page-wide LinkedIn-anchor stage of `_extract_founders`
(lines 563-601) for one anchor, given its href and its resolved name
candidate.  The name candidate is the anchor's own text when
non-trivial, else the two-capitalized-word span found by walking up to
4 ancestor elements — that HTML walk depends on the surrounding markup,
so the resolved candidate is taken as input here.  `none` when the
anchor is filtered out. -/
def founderAnchor (href nameCandidate : String) : Option Founder :=
  if href = "" then none
  else
    if ¬ (containsSub (normalizeLinkedinUrl href) "linkedin.com" = true) then none
    else if containsSub (normalizeLinkedinUrl href) "/company/" then none
    else if ¬ (containsSub (normalizeLinkedinUrl href) "/in/" ||
               containsSub (normalizeLinkedinUrl href) "/pub/") = true then none
    else if nameCandidate ≠ "" ∧ ¬ (startsWithStr (toLowerStr nameCandidate) "linkedin" = true) then
      some { name := nameCandidate, linkedin_url := normalizeLinkedinUrl href }
    else none

/-- `key = f.get('linkedin_url') or f.get('name')` (line 619): the
profile URL when non-empty, else the name. -/
def founderKey (f : Founder) : String :=
  if f.linkedin_url ≠ "" then f.linkedin_url else f.name

/-- Lookup in the insertion-ordered dict modelled as an association
list. -/
def findEntry (m : List (String × Founder)) (key : String) : Option Founder :=
  match m with
  | [] => none
  | p :: rest => if p.1 = key then some p.2 else findEntry rest key

/-- In-place overwrite of an existing dict entry (keeps its position,
as a Python dict does). -/
def dedupSet (m : List (String × Founder)) (key : String) (f : Founder) :
    List (String × Founder) :=
  m.map (fun p => if p.1 = key then (key, f) else p)

/-- The dedup loop of `_extract_founders` (lines 617-623): first entry
per key wins, except that an entry whose stored name is empty is
overwritten by a later entry with a name; stored values are stripped. -/
def dedupFold (m : List (String × Founder)) : List Founder → List (String × Founder)
  | [] => m
  | f :: rest =>
    if founderKey f = "" then dedupFold m rest
    else
      match findEntry m (founderKey f) with
      | none =>
        dedupFold (m ++ [(founderKey f, { name := pyStrip f.name, linkedin_url := pyStrip f.linkedin_url })]) rest
      | some g =>
        if g.name = "" ∧ f.name ≠ "" then
          dedupFold (dedupSet m (founderKey f) { name := pyStrip f.name, linkedin_url := pyStrip f.linkedin_url }) rest
        else dedupFold m rest

/-- The dedup-filter-cap tail of `_extract_founders` (lines 616-633):
dedup by key, drop entries whose stripped name is empty, length 1, or a
platform-name stub, keep at most 5. -/
def dedupFounders (fs : List Founder) : List Founder :=
  (((dedupFold [] fs).map (fun p => p.2)).filter
    (fun f => pyStrip f.name != "" && decide (1 < (pyStrip f.name).length) &&
      !(startsWithStr (toLowerStr (pyStrip f.name)) "linkedin"))).take 5

/-- The page-wide anchor stage of `_extract_founders` followed by its
dedup-filter-cap tail, over a list of `(href, resolved name)` anchors. -/
def extractFoundersFromAnchors (anchors : List (String × String)) : List Founder :=
  dedupFounders (anchors.filterMap (fun p => founderAnchor p.1 p.2))

/-! ## Description extraction (`_extract_main_description` cascade) -/

/-- The skip phrases of `_is_description_paragraph` (lines 827-831). -/
def descSkipPhrases : List String :=
  ["home >", "companies >", "back to", "y combinator",
   "founded in", "employees based", "san francisco", "new york"]

/-- The keyword set of `_is_description_paragraph` (lines 835-839). -/
def descKeywords : List String :=
  ["builds", "creates", "develops", "provides", "offers",
   "helps", "enables", "platform", "software", "ai",
   "solution", "service", "tool", "system"]

/-- The action verbs of `_score_description` (line 850). -/
def actionVerbs : List String :=
  ["builds", "creates", "develops", "provides", "offers", "helps", "enables"]

/-- The business terms of `_score_description` (line 854). -/
def businessTerms : List String :=
  ["platform", "software", "ai", "solution", "service", "tool", "system"]

/-- The negative phrases of `_score_description` (lines 859-861). -/
def scoreSkipPhrases : List String :=
  ["founded in", "based in", "employees", "y combinator", "yc"]

/-- Python `any(p in s for p in pats)`. -/
def containsAny (s : String) (pats : List String) : Bool :=
  pats.any (fun p => containsSub s p)

/-- `_is_description_paragraph` (lines 822-839). -/
def isDescriptionParagraph (text companyName : String) : Bool :=
  if containsAny (toLowerStr text) descSkipPhrases then false
  else decide (50 < text.length) && containsAny (toLowerStr text) descKeywords

/-- `_score_description` (lines 841-864): +2 if the company name
appears, +3 if any action verb appears, +1 if any business term appears
(once, however many), -2 if any boilerplate phrase appears. -/
def scoreDescription (text companyName : String) : Int :=
  (if containsSub (toLowerStr text) (toLowerStr companyName) then (2 : Int) else 0) +
  (if containsAny (toLowerStr text) actionVerbs then (3 : Int) else 0) +
  (if containsAny (toLowerStr text) businessTerms then (1 : Int) else 0) +
  (if containsAny (toLowerStr text) scoreSkipPhrases then (-2 : Int) else 0)

/-- `re.sub(r'\s+', ' ', s.strip())` (line 1016). -/
def collapsedStr (s : String) : String := ⟨collapseWsChars false (pyStrip s).data⟩

/-- `_clean_sentence` (lines 1013-1022): strip, collapse whitespace,
terminate with punctuation. -/
def cleanSentence (s : String) : String :=
  if (collapsedStr s != "") &&
     !(endsWithStr (collapsedStr s) "." || endsWithStr (collapsedStr s) "!" ||
       endsWithStr (collapsedStr s) "?") then
    collapsedStr s ++ "."
  else collapsedStr s

/-- The parsed detail page as `_extract_main_description` consumes it:
the meta-description content attribute (absent tag or empty attribute
both behave as `none` through the truthiness check, which the length
guard below subsumes), the paragraph texts of each matched main-like
container (`main`, `article`, `.content`, `section`, in that order),
and all paragraph texts of the page. -/
structure DescPage where
  metaDescription : Option String
  mainContainers : List (List String)
  allParagraphs : List String

/-- The meta-description guard (line 785): long enough and not
boilerplate-prefixed. -/
def metaDescOk (c : String) : Bool :=
  decide (30 < c.length) &&
    !(startsWithStr (toLowerStr c) "home" || startsWithStr (toLowerStr c) "companies")

/-- The main-container scan (lines 789-806): the first paragraph in
the first container yielding one, with length above 50 and a
description keyword. -/
def firstContainerParagraph (companyName : String) : List (List String) → Option String
  | [] => none
  | ps :: rest =>
    match ps.find? (fun t => decide (50 < t.length) && isDescriptionParagraph t companyName) with
    | some t => some t
    | none => firstContainerParagraph companyName rest

/-- One step of the scored fallback (lines 812-818): a paragraph
replaces the best candidate when it qualifies, scores positively and is
strictly longer. -/
def bestStep (companyName best t : String) : String :=
  if isDescriptionParagraph t companyName = true ∧
     0 < scoreDescription t companyName ∧ best.length < t.length
  then t else best

/-- The scored fallback (lines 808-819): among qualifying paragraphs
with positive score, the longest seen so far wins (`len(text) >
len(best_description)`), not the highest-scoring. -/
def bestScoredParagraph (companyName : String) (ps : List String) : String :=
  ps.foldl (bestStep companyName) ""

/-- The part of the `_extract_main_description` cascade after the
meta-description attempt (lines 788-820). -/
def extractMainDescriptionBody (page : DescPage) (companyName : String) : String :=
  match firstContainerParagraph companyName page.mainContainers with
  | some t => cleanSentence t
  | none =>
    if bestScoredParagraph companyName page.allParagraphs = "" then ""
    else cleanSentence (bestScoredParagraph companyName page.allParagraphs)

/-- `_extract_main_description` (lines 779-820): meta description if
acceptable, else first qualifying main-container paragraph, else the
scored fallback. -/
def extractMainDescription (page : DescPage) (companyName : String) : String :=
  match page.metaDescription with
  | some c =>
    if metaDescOk (pyStrip c) then cleanSentence (pyStrip c)
    else extractMainDescriptionBody page companyName
  | none => extractMainDescriptionBody page companyName

/-! ## Concrete scenario inputs -/

/-- Ten raw links: two navigation labels ("Founder Directory",
"Companies") and one duplicate of another (the last link repeats the
first link's URL). -/
def scenarioLinks : List RawLink :=
  [ { text := some "Alpha", href := some "/companies/alpha" }
  , { text := some "Founder Directory", href := some "/companies/founders" }
  , { text := some "Beta", href := some "/companies/beta" }
  , { text := some "Gamma", href := some "/companies/gamma" }
  , { text := some "Companies", href := some "/companies/delta" }
  , { text := some "Delta", href := some "/companies/delta" }
  , { text := some "Epsilon", href := some "/companies/epsilon" }
  , { text := some "Zeta", href := some "/companies/zeta" }
  , { text := some "Eta", href := some "/companies/eta" }
  , { text := some "Alpha Again", href := some "/companies/alpha" } ]

/-- A record as Pass 1 leaves it: enrichment fields still empty. -/
def capCompany : Company :=
  { name := "Acme", description := "", url := "https://www.ycombinator.com/companies/acme"
  , categories := "", founders := [], summary := "" }

/-- The enrichment environment in which every detail-page visit fails
(timeout, navigation error or extractor exception on every URL). -/
def envFail : String → Option DetailData := fun _ => none

/-- A scroll trace in which the unique-link count grows for 2 rounds
(20, then 47) and then stays at 47 for at least 3 consecutive rounds;
heights keep changing throughout. -/
def scenTrace : List (RoundObs Nat) :=
  [ { newHeight := 1, newHrefs := Finset.range 20 }
  , { newHeight := 2, newHrefs := Finset.range 47 }
  , { newHeight := 3, newHrefs := Finset.range 47 }
  , { newHeight := 4, newHrefs := Finset.range 47 }
  , { newHeight := 5, newHrefs := Finset.range 47 }
  , { newHeight := 6, newHrefs := Finset.range 47 } ]

/-- A scroll trace in which neither signal converges: every round the
height changes and exactly one new link appears (61 rounds, one more
than `max_attempts = 60`). -/
def longTrace : List (RoundObs Nat) :=
  (List.range 61).map (fun i => { newHeight := i + 1, newHrefs := {i} })

/-- Listing anchors discovered in the order bravo, alpha. -/
def orderRaws : List (Option String) :=
  [some "/companies/bravo", some "/companies/alpha"]

/-- Two founder anchors for the same person whose profile URLs differ
in trailing slash, scheme and subdomain but share the same normalized
form. -/
def founderScenAnchors : List (String × String) :=
  [ ("https://www.linkedin.com/in/john-doe/", "John Doe")
  , ("http://linkedin.com/in/john-doe", "John Doe") ]

/-- The scenario paragraph. -/
def acmeParagraph : String :=
  "Acme builds an AI platform that automates invoicing for enterprises."

/-- A longer paragraph that qualifies but scores only +1 (two business
terms, no action verb, no company name). -/
def longParagraph : String :=
  "The system is a tool for accounting teams at growing companies around the world, used every single day."

/-- The scenario page: no meta description, no main-like container,
one paragraph. -/
def scenDescPage : DescPage :=
  { metaDescription := none, mainContainers := [], allParagraphs := [acmeParagraph] }

/-- A page on which the claim's "highest-scoring paragraph wins" and
the code's "longest positive-scoring paragraph wins" disagree. -/
def scoreDescPage : DescPage :=
  { metaDescription := none, mainContainers := []
  , allParagraphs := [acmeParagraph, longParagraph] }

/-! # Theorems -/

/-! ## First-occurrence dedup -/

theorem dedupKF_mem_nodup :
    ∀ (l : List String) (seen : Finset String),
      (∀ u ∈ dedupKF seen l, u ∉ seen) ∧ (dedupKF seen l).Nodup := by
  intro l
  induction l with
  | nil => intro seen; simp [dedupKF]
  | cons u rest ih =>
    intro seen
    by_cases hu : u ∈ seen
    · simpa [dedupKF, hu] using ih seen
    · rw [dedupKF, if_neg hu]
      obtain ⟨ihm, ihn⟩ := ih (insert u seen)
      constructor
      · intro v hv
        rcases List.mem_cons.mp hv with hv' | hv'
        · subst hv'; exact hu
        · intro hvs
          exact ihm v hv' (Finset.mem_insert_of_mem hvs)
      · refine List.nodup_cons.mpr ⟨?_, ihn⟩
        intro hmem
        exact ihm u hmem (Finset.mem_insert_self u seen)

theorem dedupKF_length :
    ∀ (l : List String) (seen : Finset String),
      (dedupKF seen l).length = (l.toFinset \ seen).card := by
  intro l
  induction l with
  | nil => intro seen; simp [dedupKF]
  | cons u rest ih =>
    intro seen
    by_cases hu : u ∈ seen
    · rw [dedupKF, if_pos hu, ih seen, List.toFinset_cons, Finset.insert_sdiff_of_mem _ hu]
    · rw [dedupKF, if_neg hu]
      have hset : u ∉ rest.toFinset \ insert u seen := by simp
      have hEq : (u :: rest).toFinset \ seen = insert u (rest.toFinset \ insert u seen) := by
        ext x
        by_cases hxu : x = u
        · subst hxu; simp [hu]
        · simp [hxu]
      rw [hEq, Finset.card_insert_of_not_mem hset]
      simp [List.length_cons, ih (insert u seen)]

/-! ## Pass-1 capture -/

theorem firstPass_fold :
    ∀ (links : List RawLink) (st : FPState),
      (links.foldl firstPassStep st).companies.map (fun c => c.url) =
        st.companies.map (fun c => c.url) ++ dedupKF st.seen (links.filterMap acceptedUrl) := by
  intro links
  induction links with
  | nil => intro st; simp [dedupKF]
  | cons l rest ih =>
    intro st
    rw [List.foldl_cons, List.filterMap_cons]
    cases htext : l.text with
    | none =>
      have hstep : firstPassStep st l = { st with errors := st.errors + 1 } := by
        simp [firstPassStep, htext]
      have hacc : acceptedUrl l = none := by simp [acceptedUrl, htext]
      rw [hacc, hstep]
      simpa using ih { st with errors := st.errors + 1 }
    | some t =>
      by_cases hnav : toLowerStr (pyStrip t) ∈ navLabels
      · have hstep : firstPassStep st l = { st with skipped := st.skipped + 1 } := by
          simp [firstPassStep, htext, hnav]
        have hacc : acceptedUrl l = none := by simp [acceptedUrl, htext, hnav]
        rw [hacc, hstep]
        simpa using ih { st with skipped := st.skipped + 1 }
      · cases href : l.href with
        | none =>
          have hstep : firstPassStep st l = { st with errors := st.errors + 1 } := by
            simp [firstPassStep, htext, hnav, href]
          have hacc : acceptedUrl l = none := by simp [acceptedUrl, htext, hnav, href]
          rw [hacc, hstep]
          simpa using ih { st with errors := st.errors + 1 }
        | some h =>
          by_cases hemp : h = ""
          · have hstep : firstPassStep st l = { st with errors := st.errors + 1 } := by
              simp [firstPassStep, htext, hnav, href, hemp]
            have hacc : acceptedUrl l = none := by simp [acceptedUrl, htext, hnav, href, hemp]
            rw [hacc, hstep]
            simpa using ih { st with errors := st.errors + 1 }
          · by_cases hstrict : strictCompanyUrl (normalizeFP h) = true
            · have hacc : acceptedUrl l = some (normalizeFP h) := by
                simp [acceptedUrl, htext, hnav, href, hemp, hstrict]
              rw [hacc]
              by_cases hseen : normalizeFP h ∈ st.seen
              · have hstep : firstPassStep st l = { st with skipped := st.skipped + 1 } := by
                  simp [firstPassStep, htext, hnav, href, hemp, hstrict, hseen]
                rw [hstep, dedupKF, if_pos hseen]
                simpa using ih { st with skipped := st.skipped + 1 }
              · have hstep : firstPassStep st l =
                    { st with
                      companies := st.companies ++ [mkBasicCompany t (normalizeFP h)]
                    , seen := insert (normalizeFP h) st.seen
                    , processed := st.processed + 1 } := by
                  simp [firstPassStep, htext, hnav, href, hemp, hstrict, hseen]
                rw [hstep, dedupKF, if_neg hseen]
                have := ih { st with
                  companies := st.companies ++ [mkBasicCompany t (normalizeFP h)]
                , seen := insert (normalizeFP h) st.seen
                , processed := st.processed + 1 }
                simpa [mkBasicCompany, List.append_assoc] using this
            · have hstep : firstPassStep st l = { st with skipped := st.skipped + 1 } := by
                simp [firstPassStep, htext, hnav, href, hemp, hstrict]
              have hacc : acceptedUrl l = none := by
                simp [acceptedUrl, htext, hnav, href, hemp, hstrict]
              rw [hacc, hstep]
              simpa using ih { st with skipped := st.skipped + 1 }

theorem firstPass_urls (links : List RawLink) :
    (firstPass links).companies.map (fun c => c.url) =
      dedupKF ∅ (links.filterMap acceptedUrl) := by
  have := firstPass_fold links firstPassInit
  simpa [firstPass, firstPassInit] using this

/-! ## Pass-2 enrichment -/

theorem enrichStep_fold (env : String → Option DetailData) :
    ∀ (cos : List Company) (acc : Pass2Result),
      cos.foldl (enrichStep env) acc =
        { records := acc.records ++ cos.map (enrichCompany env)
        , enrichedCount := acc.enrichedCount + cos.length
        , errorCount := acc.errorCount } := by
  intro cos
  induction cos with
  | nil => intro acc; simp
  | cons c rest ih =>
    intro acc
    rw [List.foldl_cons, ih]
    simp only [enrichStep, List.map_cons, List.length_cons, List.append_assoc,
      List.singleton_append, Pass2Result.mk.injEq]
    refine ⟨by simp, by omega, by simp⟩

theorem sliceConcat_nil_of_big (cs : Nat) :
    ∀ (ks : List Nat) (l : List Company),
      (∀ k ∈ ks, l.length ≤ k * cs) → sliceConcat l cs ks = [] := by
  intro ks
  induction ks with
  | nil => intro l _; rfl
  | cons k ks ih =>
    intro l hbig
    have h1 : chunkSlice l cs k = [] := by
      have : l.drop (k * cs) = [] := List.drop_eq_nil_of_le (hbig k (by simp))
      simp [chunkSlice, this]
    rw [sliceConcat, h1, ih l (fun k hk => hbig k (by simp [hk]))]
    rfl

theorem chunkSlice_shift (l : List Company) (cs k : Nat) (h : cs ≤ l.length) :
    chunkSlice l cs (k + 1) = chunkSlice (l.drop cs) cs k := by
  unfold chunkSlice
  have hd : (l.drop cs).drop (k * cs) = l.drop ((k + 1) * cs) := by
    rw [List.drop_drop]
    congr 1
    ring
  rw [hd]
  congr 1
  rw [List.length_drop]
  have e1 : (k + 1) * cs = k * cs + cs := by ring
  have e2 : (k + 1 + 1) * cs = k * cs + cs + cs := by ring
  rw [e1, e2]
  generalize k * cs = a
  rw [Nat.min_def, Nat.min_def]
  split_ifs <;> omega

theorem sliceConcat_shift (cs : Nat) (l : List Company) (h : cs ≤ l.length) :
    ∀ ks : List Nat,
      sliceConcat l cs (ks.map Nat.succ) = sliceConcat (l.drop cs) cs ks := by
  intro ks
  induction ks with
  | nil => rfl
  | cons k ks ih =>
    have hk : chunkSlice l cs (Nat.succ k) = chunkSlice (l.drop cs) cs k :=
      chunkSlice_shift l cs k h
    simp only [List.map_cons, sliceConcat, hk, ih]

theorem sliceConcat_range :
    ∀ (t : Nat) (l : List Company) (cs : Nat), 0 < cs →
      l.length ≤ t * cs → sliceConcat l cs (List.range t) = l := by
  intro t
  induction t with
  | zero =>
    intro l cs hcs hl
    have : l = [] := List.eq_nil_of_length_eq_zero (by omega)
    subst this
    rfl
  | succ t ih =>
    intro l cs hcs hl
    rw [List.range_succ_eq_map]
    by_cases hle : cs ≤ l.length
    · have hrest : sliceConcat l cs ((List.range t).map Nat.succ) =
          sliceConcat (l.drop cs) cs (List.range t) := sliceConcat_shift cs l hle _
      have hihl : (l.drop cs).length ≤ t * cs := by
        rw [List.length_drop]
        have e : (t + 1) * cs = t * cs + cs := by ring
        omega
      have h0 : chunkSlice l cs 0 = l.take cs := by
        unfold chunkSlice
        have e : (0 + 1) * cs = cs := by ring
        rw [Nat.zero_mul, e, List.drop_zero, Nat.sub_zero]
        have hm : min cs l.length = cs := by omega
        rw [hm]
      rw [sliceConcat, hrest, ih (l.drop cs) cs hcs hihl, h0, List.take_append_drop]
    · push_neg at hle
      have h0 : chunkSlice l cs 0 = l := by
        unfold chunkSlice
        have e : (0 + 1) * cs = cs := by ring
        rw [Nat.zero_mul, e, List.drop_zero, Nat.sub_zero]
        have hm : min cs l.length = l.length := by omega
        rw [hm, List.take_length]
      have hrest : sliceConcat l cs ((List.range t).map Nat.succ) = [] := by
        apply sliceConcat_nil_of_big
        intro k hk
        obtain ⟨j, _, rfl⟩ := List.mem_map.mp hk
        have e : Nat.succ j * cs = j * cs + cs := by
          rw [Nat.succ_eq_add_one]; ring
        omega
      rw [sliceConcat, h0, hrest, List.append_nil]

theorem secondPassRun_eq (env : String → Option DetailData) (cs : Nat)
    (l : List Company) (h : 0 < cs) :
    secondPassRun env cs l =
      { records := l.map (enrichCompany env)
      , enrichedCount := l.length
      , errorCount := 0 } := by
  unfold secondPassRun
  have houter : ∀ (ks : List Nat) (acc : Pass2Result),
      ks.foldl (fun acc k => (chunkSlice l cs k).foldl (enrichStep env) acc) acc =
        { records := acc.records ++ (sliceConcat l cs ks).map (enrichCompany env)
        , enrichedCount := acc.enrichedCount + (sliceConcat l cs ks).length
        , errorCount := acc.errorCount } := by
    intro ks
    induction ks with
    | nil => intro acc; simp [sliceConcat]
    | cons k ks ih =>
      intro acc
      rw [List.foldl_cons, enrichStep_fold, ih]
      simp only [sliceConcat, List.map_append, List.length_append, List.length_map,
        List.append_assoc, Pass2Result.mk.injEq]
      refine ⟨by simp, by omega, by simp⟩
  rw [houter]
  have hcover : sliceConcat l cs (List.range ((l.length + cs - 1) / cs)) = l := by
    apply sliceConcat_range _ _ _ h
    have hdm := Nat.div_add_mod (l.length + cs - 1) cs
    have hmlt : (l.length + cs - 1) % cs < cs := Nat.mod_lt _ h
    rw [Nat.mul_comm]
    generalize hg : cs * ((l.length + cs - 1) / cs) = a at hdm ⊢
    omega
  rw [hcover]
  simp

theorem enrichCompany_url (env : String → Option DetailData) (c : Company) :
    (enrichCompany env c).1.url = c.url := by
  simp [enrichCompany]

/-! ## Claim C1 -/

/-- C1: the number of records captured by Pass 1 equals the number of
distinct accepted identity keys among the links — the links that pass
the navigation denylist, have a URL, and whose normalized URL matches
the strict pattern, deduplicated — and is independent of enrichment
(Pass 2 processes exactly as many records as it is given, whatever the
enrichment outcomes); in the 10-link scenario with 2 navigation labels
and 1 duplicate, Pass 1 captures exactly 7 records. -/
theorem C1_capture_count :
    (∀ links : List RawLink,
      (firstPass links).companies.length = ((links.filterMap acceptedUrl).toFinset).card)
    ∧ (firstPass scenarioLinks).companies.length = 7
    ∧ (∀ (env : String → Option DetailData) (cs : Nat) (companies : List Company),
        0 < cs → (secondPassRun env cs companies).records.length = companies.length) := by
  refine ⟨?_, by decide, ?_⟩
  · intro links
    have hmap := firstPass_urls links
    have hlen : (firstPass links).companies.length =
        ((firstPass links).companies.map (fun c => c.url)).length := by
      rw [List.length_map]
    rw [hlen, hmap, dedupKF_length]
    simp
  · intro env cs companies hcs
    rw [secondPassRun_eq env cs companies hcs]
    simp

/-- Witness for C1's hypothesis-bearing conjunct at a concrete input. -/
theorem C1_capture_count_witness :
    (secondPassRun envFail 3 [capCompany]).records.length = [capCompany].length :=
  C1_capture_count.2.2 envFail 3 [capCompany] (by decide)

/-! ## Claim C2 -/

/-- C2 as stated is false on the code: a failed enrichment does NOT
increment the error counter.  With one record and an environment in
which every detail-page visit fails, Pass 2 finishes with the record in
`EnrichmentFailed` and the sentinel description, yet `error_count` is 0
and the record is counted as a successful enrichment
(`enriched_count = 1`): the exception is swallowed inside
`_extract_detailed_data`, so the `except` branch of
`_second_pass_enrich_data` that increments the counter never runs. -/
theorem C2_error_counter_counterexample :
    (secondPassRun envFail 3 [capCompany]).errorCount = 0
    ∧ (secondPassRun envFail 3 [capCompany]).enrichedCount = 1
    ∧ (secondPassRun envFail 3 [capCompany]).records.map (fun p => p.2) =
        [Status.EnrichmentFailed]
    ∧ (secondPassRun envFail 3 [capCompany]).records.map (fun p => p.1.description) =
        ["Description not available"] := by
  decide

/-- C2 (amended): when a record's Pass-2 enrichment fails (timeout,
navigation error, or extractor exception), the record's `name`, `url`
and `categories` are left untouched and the sentinel "not available"
values are written into the enrichment fields (which are still empty at
that point), the record ends in `EnrichmentFailed`, and processing
continues with the sibling records — the chunk and the run are never
aborted; however the error counter is NOT incremented (it stays 0 for
any run, because the failure is caught inside the extraction step) and
the record is counted as a successful enrichment.  A record whose
detail-page navigation times out has `description = ""` before the
attempt and `description = "Description not available"` after. -/
theorem C2_enrichment_failure_amended :
    (∀ (env : String → Option DetailData) (c : Company), env c.url = none →
      enrichCompany env c =
        ({ name := c.name, description := "Description not available", url := c.url
         , categories := c.categories, founders := [], summary := "Summary not available" },
         Status.EnrichmentFailed))
    ∧ (∀ (env : String → Option DetailData) (cs : Nat) (companies : List Company),
        0 < cs → (secondPassRun env cs companies).records = companies.map (enrichCompany env))
    ∧ (∀ (env : String → Option DetailData) (cs : Nat) (companies : List Company),
        (secondPassRun env cs companies).errorCount = 0)
    ∧ (∀ (env : String → Option DetailData) (cs : Nat) (companies : List Company),
        0 < cs → (secondPassRun env cs companies).enrichedCount = companies.length)
    ∧ (capCompany.description = ""
       ∧ (enrichCompany envFail capCompany).1.description = "Description not available"
       ∧ (enrichCompany envFail capCompany).2 = Status.EnrichmentFailed) := by
  refine ⟨?_, ?_, ?_, ?_, by decide⟩
  · intro env c hfail
    simp [enrichCompany, extractDetailedData, hfail, notAvailableData]
  · intro env cs companies hcs
    rw [secondPassRun_eq env cs companies hcs]
  · intro env cs companies
    by_cases hcs : 0 < cs
    · rw [secondPassRun_eq env cs companies hcs]
    · have hcs0 : cs = 0 := by omega
      subst hcs0
      unfold secondPassRun
      have houter : ∀ (ks : List Nat) (acc : Pass2Result),
          (ks.foldl (fun acc k => (chunkSlice companies 0 k).foldl (enrichStep env) acc) acc).errorCount
            = acc.errorCount := by
        intro ks
        induction ks with
        | nil => intro acc; rfl
        | cons k ks ih => intro acc; rw [List.foldl_cons, enrichStep_fold]; exact ih _
      rw [houter]
  · intro env cs companies hcs
    rw [secondPassRun_eq env cs companies hcs]

/-- Witness for C2's amended theorem at a concrete failing input. -/
theorem C2_enrichment_failure_amended_witness :
    enrichCompany envFail capCompany =
      ({ name := capCompany.name, description := "Description not available"
       , url := capCompany.url, categories := capCompany.categories
       , founders := [], summary := "Summary not available" },
       Status.EnrichmentFailed) :=
  C2_enrichment_failure_amended.1 envFail capCompany rfl

/-! ## Claim C3 -/

/-- C3: no two records ever share an identity key: the Pass-1 record
list has pairwise distinct `url`s at every point (every prefix of the
link list is itself a run of Pass 1, and the theorem holds for all
runs), and Pass 2 rewrites only enrichment fields, so the url sequence
after Pass 2 is exactly the url sequence after Pass 1. -/
theorem C3_identity_uniqueness :
    (∀ links : List RawLink,
      ((firstPass links).companies.map (fun c => c.url)).Nodup)
    ∧ (∀ (env : String → Option DetailData) (cs : Nat) (companies : List Company),
        0 < cs →
        (secondPassRun env cs companies).records.map (fun p => p.1.url) =
          companies.map (fun c => c.url)) := by
  constructor
  · intro links
    rw [firstPass_urls links]
    exact (dedupKF_mem_nodup (links.filterMap acceptedUrl) ∅).2
  · intro env cs companies hcs
    rw [secondPassRun_eq env cs companies hcs]
    rw [List.map_map]
    apply List.map_congr_left
    intro c _
    exact enrichCompany_url env c

/-- Witness for C3's hypothesis-bearing conjunct at a concrete input. -/
theorem C3_identity_uniqueness_witness :
    (secondPassRun envFail 3 [capCompany]).records.map (fun p => p.1.url) =
      [capCompany].map (fun c => c.url) :=
  C3_identity_uniqueness.2 envFail 3 [capCompany] (by decide)

/-! ## Claim C4 -/

/-- C4: after Pass 2, every record has been enriched exactly once (the
chunked iteration visits each record once, in order), every record's
status is `Enriched` or `EnrichmentFailed` — never still `Captured` —
and the transition out of `Captured` is `Enriched` exactly when the
extraction succeeded and `EnrichmentFailed` exactly when it failed;
the enrichment step never produces `Captured`, so no reverse
transition exists. -/
theorem C4_status_terminal :
    ∀ (env : String → Option DetailData) (cs : Nat) (companies : List Company),
      0 < cs →
      (secondPassRun env cs companies).records = companies.map (enrichCompany env)
      ∧ (∀ p ∈ (secondPassRun env cs companies).records,
          p.2 = Status.Enriched ∨ p.2 = Status.EnrichmentFailed)
      ∧ (∀ c : Company, (enrichCompany env c).2 ≠ Status.Captured)
      ∧ (∀ c : Company,
          ((env c.url).isSome → (enrichCompany env c).2 = Status.Enriched)
          ∧ ((env c.url).isNone → (enrichCompany env c).2 = Status.EnrichmentFailed)) := by
  intro env cs companies hcs
  have hstatus : ∀ c : Company,
      (enrichCompany env c).2 = Status.Enriched ∨
      (enrichCompany env c).2 = Status.EnrichmentFailed := by
    intro c
    unfold enrichCompany
    cases env c.url <;> simp
  refine ⟨secondPassRun_eq env cs companies hcs ▸ rfl, ?_, ?_, ?_⟩
  · intro p hp
    rw [secondPassRun_eq env cs companies hcs] at hp
    obtain ⟨c, _, rfl⟩ := List.mem_map.mp hp
    exact hstatus c
  · intro c
    rcases hstatus c with h | h <;> rw [h] <;> intro hcap <;> exact Status.noConfusion hcap
  · intro c
    constructor
    · intro hsome
      unfold enrichCompany
      cases henv : env c.url with
      | none => rw [henv] at hsome; simp at hsome
      | some d => simp
    · intro hnone
      unfold enrichCompany
      cases henv : env c.url with
      | none => simp
      | some d => rw [henv] at hnone; simp at hnone

/-- Witness for C4 at a concrete input. -/
theorem C4_status_terminal_witness :
    (secondPassRun envFail 3 [capCompany]).records = [capCompany].map (enrichCompany envFail)
    ∧ (∀ p ∈ (secondPassRun envFail 3 [capCompany]).records,
        p.2 = Status.Enriched ∨ p.2 = Status.EnrichmentFailed)
    ∧ (∀ c : Company, (enrichCompany envFail c).2 ≠ Status.Captured)
    ∧ (∀ c : Company,
        ((envFail c.url).isSome → (enrichCompany envFail c).2 = Status.Enriched)
        ∧ ((envFail c.url).isNone → (enrichCompany envFail c).2 = Status.EnrichmentFailed)) :=
  C4_status_terminal envFail 3 [capCompany] (by decide)

/-! ## Scroll convergence -/

theorem accumHrefs_cons {α : Type} [DecidableEq α] (s : Finset α) (o : RoundObs α)
    (l : List (RoundObs α)) : accumHrefs s (o :: l) = accumHrefs (s ∪ o.newHrefs) l := rfl

/-! ## Claim C5 -/

/-- C5: whenever the loop is `k` rounds of unchanged link-set
cardinality away from `requiredStableRounds` and the next `k`
observations contribute no new hrefs (with the attempt budget and the
target cap not interfering), the loop stops right there, successfully
(`converged`), with the seen set unchanged; in particular, on the trace
whose link count grows for 2 rounds and then stays at 47 for 3
consecutive rounds under the source configuration
(`required_stable_rounds = 3`), it converges after round 5 with 47
unique links. -/
theorem C5_convergence :
    (∀ (α : Type) [DecidableEq α] (cfg : ScrollConfig) (k : Nat)
       (st : ScrollState α) (obss : List (RoundObs α)),
       st.stableRounds + k = cfg.requiredStableRounds →
       st.scrollAttempts + k < cfg.maxAttempts →
       st.seenHrefs.card < cfg.targetCompanies →
       k ≤ obss.length →
       (∀ o ∈ obss.take k, o.newHrefs ⊆ st.seenHrefs) →
       ∃ st' : ScrollState α,
         scrollRun cfg st obss = (st', ScrollExit.converged, k)
         ∧ st'.seenHrefs = st.seenHrefs)
    ∧ ((scrollRun defaultScrollConfig scrollInit scenTrace).2.1 = ScrollExit.converged
       ∧ (scrollRun defaultScrollConfig scrollInit scenTrace).2.2 = 5
       ∧ (scrollRun defaultScrollConfig scrollInit scenTrace).1.seenHrefs.card = 47) := by
  constructor
  · intro α inst cfg k
    induction k with
    | zero =>
      intro st obss h1 h2 h3 h4 h5
      refine ⟨st, ?_, rfl⟩
      cases obss with
      | nil => rw [scrollRun, if_neg (by omega), if_pos (by omega)]
      | cons o rest => rw [scrollRun, if_neg (by omega), if_pos (by omega)]
    | succ k ih =>
      intro st obss h1 h2 h3 h4 h5
      cases obss with
      | nil => simp at h4
      | cons o rest =>
        have hsub : o.newHrefs ⊆ st.seenHrefs := by
          apply h5
          simp [List.take_succ_cons]
        have hseen : st.seenHrefs ∪ o.newHrefs = st.seenHrefs := Finset.union_eq_left.mpr hsub
        have hstepSeen : (scrollStep cfg st o).1.seenHrefs = st.seenHrefs := by
          simp [scrollStep, hseen]
        have hstepStable : (scrollStep cfg st o).1.stableRounds = st.stableRounds + 1 := by
          simp [scrollStep, hseen]
        have hstepAtt : (scrollStep cfg st o).1.scrollAttempts ≤ st.scrollAttempts + 1 := by
          simp only [scrollStep]
          split <;> omega
        have hstepBreak : (scrollStep cfg st o).2 = false := by
          simp only [scrollStep, hseen, decide_eq_false_iff_not]
          omega
        have hrun : scrollRun cfg st (o :: rest) =
            ((scrollRun cfg (scrollStep cfg st o).1 rest).1,
             (scrollRun cfg (scrollStep cfg st o).1 rest).2.1,
             (scrollRun cfg (scrollStep cfg st o).1 rest).2.2 + 1) := by
          rw [scrollRun, if_neg (by omega : ¬ cfg.maxAttempts ≤ st.scrollAttempts),
            if_neg (by omega : ¬ cfg.requiredStableRounds ≤ st.stableRounds)]
          simp only [hstepBreak, Bool.false_eq_true, if_false]
        obtain ⟨st', hrun', hseen'⟩ := ih (scrollStep cfg st o).1 rest
          (by omega) (by omega) (by rw [hstepSeen]; exact h3)
          (by simpa using h4)
          (by
            intro o' ho'
            rw [hstepSeen]
            exact h5 o' (by simp [List.take_succ_cons, ho']))
        refine ⟨st', ?_, by rw [hseen', hstepSeen]⟩
        rw [hrun, hrun']
  · exact ⟨by decide, by decide, by decide⟩

/-- Witness for C5's general conjunct: a state 3 stable rounds short of
convergence, with 47 links already seen, converges in exactly 3 rounds. -/
theorem C5_convergence_witness :
    ∃ st' : ScrollState Nat,
      scrollRun defaultScrollConfig
        { lastHeight := 9, scrollAttempts := 0, seenHrefs := Finset.range 47, stableRounds := 0 }
        [ { newHeight := 10, newHrefs := Finset.range 47 }
        , { newHeight := 11, newHrefs := Finset.range 47 }
        , { newHeight := 12, newHrefs := Finset.range 47 } ]
        = (st', ScrollExit.converged, 3)
      ∧ st'.seenHrefs = Finset.range 47 :=
  C5_convergence.1 Nat defaultScrollConfig 3
    { lastHeight := 9, scrollAttempts := 0, seenHrefs := Finset.range 47, stableRounds := 0 }
    [ { newHeight := 10, newHrefs := Finset.range 47 }
    , { newHeight := 11, newHrefs := Finset.range 47 }
    , { newHeight := 12, newHrefs := Finset.range 47 } ]
    (by decide) (by decide) (by decide) (by decide) (by decide)

/-! ## Claim C6 -/

/-- C6 as stated is false on the code: the loop is NOT bounded by
`maxScrollAttempts` total rounds.  `scroll_attempts` is reset to 0
whenever the page height changes (line 202), so on a trace where the
height changes and one new link appears every round, the loop is still
running after 61 rounds under the source configuration
(`scroll_timeout = 60`) — the 61-round trace is exhausted without any
exit having fired. -/
theorem C6_max_attempts_counterexample :
    (scrollRun defaultScrollConfig scrollInit longTrace).2.2 = 61
    ∧ (scrollRun defaultScrollConfig scrollInit longTrace).2.1 = ScrollExit.pageEnded
    ∧ defaultScrollConfig.maxAttempts < 61 := by
  refine ⟨by decide, by decide, by decide⟩

/-- C6 (amended): `maxScrollAttempts` bounds consecutive rounds with
unchanged page height, not total rounds.  The loop exits immediately,
unsuccessfully but non-fatally and with the collected link set intact,
as soon as `scroll_attempts >= max_attempts`; and from any state, `k =
maxAttempts - scrollAttempts` further rounds in which the height never
changes (while new links keep arriving, keeping the link-set signal and
the target cap from firing first) make it exit with
`maxAttemptsReached` after exactly those `k` rounds, the seen set
accumulating every observed href for downstream use.  When the height
keeps changing, the round count can exceed `maxScrollAttempts`
(`C6_max_attempts_counterexample`). -/
theorem C6_max_attempts_amended :
    (∀ (α : Type) [DecidableEq α] (cfg : ScrollConfig) (st : ScrollState α)
       (obss : List (RoundObs α)),
       cfg.maxAttempts ≤ st.scrollAttempts →
       scrollRun cfg st obss = (st, ScrollExit.maxAttemptsReached, 0))
    ∧ (∀ (α : Type) [DecidableEq α] (cfg : ScrollConfig) (k : Nat)
        (st : ScrollState α) (obss : List (RoundObs α)),
        st.scrollAttempts + k = cfg.maxAttempts →
        st.stableRounds < cfg.requiredStableRounds →
        k ≤ obss.length →
        (∀ o ∈ obss.take k, o.newHeight = st.lastHeight) →
        (∀ i (hik : i < k) (hil : i < obss.length),
          ¬ (obss[i].newHrefs ⊆ accumHrefs st.seenHrefs (obss.take i))) →
        (∀ i (hik : i < k) (hil : i < obss.length),
          (accumHrefs st.seenHrefs (obss.take (i + 1))).card < cfg.targetCompanies) →
        ∃ st' : ScrollState α,
          scrollRun cfg st obss = (st', ScrollExit.maxAttemptsReached, k)
          ∧ st'.seenHrefs = accumHrefs st.seenHrefs (obss.take k)) := by
  constructor
  · intro α inst cfg st obss hmax
    cases obss with
    | nil => rw [scrollRun, if_pos hmax]
    | cons o rest => rw [scrollRun, if_pos hmax]
  · intro α inst cfg k
    induction k with
    | zero =>
      intro st obss h1 h2 h3 h4 h5 h6
      refine ⟨st, ?_, by simp [accumHrefs]⟩
      cases obss with
      | nil => rw [scrollRun, if_pos (by omega)]
      | cons o rest => rw [scrollRun, if_pos (by omega)]
    | succ k ih =>
      intro st obss h1 h2 h3 h4 h5 h6
      cases obss with
      | nil => simp at h3
      | cons o rest =>
        have hheight : o.newHeight = st.lastHeight := by
          apply h4
          simp [List.take_succ_cons]
        have hgrow0 : ¬ (o.newHrefs ⊆ st.seenHrefs) := by
          have := h5 0 (by omega) (by simp)
          simpa [accumHrefs] using this
        have hne : st.seenHrefs ≠ st.seenHrefs ∪ o.newHrefs := by
          intro hEq
          exact hgrow0 (hEq ▸ Finset.subset_union_right)
        have hcardlt : st.seenHrefs.card < (st.seenHrefs ∪ o.newHrefs).card := by
          apply Finset.card_lt_card
          exact Finset.ssubset_iff_subset_ne.mpr ⟨Finset.subset_union_left, hne⟩
        have hstepSeen : (scrollStep cfg st o).1.seenHrefs = st.seenHrefs ∪ o.newHrefs := by
          simp [scrollStep]
        have hstepStable : (scrollStep cfg st o).1.stableRounds = 0 := by
          simp only [scrollStep]
          rw [if_neg (by omega)]
        have hstepAtt : (scrollStep cfg st o).1.scrollAttempts = st.scrollAttempts + 1 := by
          simp [scrollStep, hheight]
        have hstepLast : (scrollStep cfg st o).1.lastHeight = st.lastHeight := by
          simp [scrollStep, hheight]
        have hcard0 : (st.seenHrefs ∪ o.newHrefs).card < cfg.targetCompanies := by
          have := h6 0 (by omega) (by simp)
          simpa [accumHrefs] using this
        have hstepBreak : (scrollStep cfg st o).2 = false := by
          simp only [scrollStep, decide_eq_false_iff_not]
          omega
        have hrun : scrollRun cfg st (o :: rest) =
            ((scrollRun cfg (scrollStep cfg st o).1 rest).1,
             (scrollRun cfg (scrollStep cfg st o).1 rest).2.1,
             (scrollRun cfg (scrollStep cfg st o).1 rest).2.2 + 1) := by
          rw [scrollRun, if_neg (by omega : ¬ cfg.maxAttempts ≤ st.scrollAttempts),
            if_neg (by omega : ¬ cfg.requiredStableRounds ≤ st.stableRounds)]
          simp only [hstepBreak, Bool.false_eq_true, if_false]
        obtain ⟨st', hrun', hseen'⟩ := ih (scrollStep cfg st o).1 rest
          (by omega) (by omega) (by simpa using h3)
          (by
            intro o' ho'
            rw [hstepLast]
            exact h4 o' (by simp [List.take_succ_cons, ho']))
          (by
            intro i hik hil
            have := h5 (i + 1) (by omega) (by simpa using Nat.succ_lt_succ hil)
            simpa [hstepSeen, List.take_succ_cons, accumHrefs_cons] using this)
          (by
            intro i hik hil
            have := h6 (i + 1) (by omega) (by simpa using Nat.succ_lt_succ hil)
            simpa [hstepSeen, List.take_succ_cons, accumHrefs_cons] using this)
        refine ⟨st', ?_, ?_⟩
        · rw [hrun, hrun']
        · rw [hseen', hstepSeen, List.take_succ_cons, accumHrefs_cons]

/-- Witness for C6's amended theorem at concrete inputs: immediate exit
with the budget exhausted, and a one-round height-stalled run with
`maxAttempts = 1`. -/
theorem C6_max_attempts_amended_witness :
    (scrollRun { maxAttempts := 60, requiredStableRounds := 3, targetCompanies := 200 }
        { lastHeight := 5, scrollAttempts := 60, seenHrefs := Finset.range 12, stableRounds := 0 }
        ([] : List (RoundObs Nat))
      = ({ lastHeight := 5, scrollAttempts := 60, seenHrefs := Finset.range 12, stableRounds := 0 },
         ScrollExit.maxAttemptsReached, 0))
    ∧ (∃ st' : ScrollState Nat,
        scrollRun { maxAttempts := 1, requiredStableRounds := 3, targetCompanies := 200 }
          scrollInit [ { newHeight := 0, newHrefs := {0} } ]
          = (st', ScrollExit.maxAttemptsReached, 1)
        ∧ st'.seenHrefs = accumHrefs scrollInit.seenHrefs
            ([ { newHeight := 0, newHrefs := ({0} : Finset Nat) } ].take 1)) := by
  constructor
  · exact C6_max_attempts_amended.1 Nat
      { maxAttempts := 60, requiredStableRounds := 3, targetCompanies := 200 }
      { lastHeight := 5, scrollAttempts := 60, seenHrefs := Finset.range 12, stableRounds := 0 }
      [] (by decide)
  · exact C6_max_attempts_amended.2 Nat
      { maxAttempts := 1, requiredStableRounds := 3, targetCompanies := 200 }
      1 scrollInit [ { newHeight := 0, newHrefs := {0} } ]
      (by decide) (by decide) (by decide)
      (by intro o ho; simp at ho; rw [ho]; rfl)
      (by intro i hik hil; interval_cases i; simp only [List.getElem_cons_zero]; decide)
      (by intro i hik hil; interval_cases i; decide)

/-! ## Lexicographic order used by `sorted(...)` -/

theorem ltChars_trans :
    ∀ (a b c : List Char), ltChars a b = true → ltChars b c = true → ltChars a c = true := by
  intro a
  induction a with
  | nil =>
    intro b c hab hbc
    cases b with
    | nil => simp [ltChars] at hab
    | cons y ys =>
      cases c with
      | nil => simp [ltChars] at hbc
      | cons z zs => simp [ltChars]
  | cons x xs ih =>
    intro b c hab hbc
    cases b with
    | nil => simp [ltChars] at hab
    | cons y ys =>
      cases c with
      | nil => simp [ltChars] at hbc
      | cons z zs =>
        rw [ltChars] at hab hbc ⊢
        by_cases h1 : x.toNat < y.toNat
        · by_cases h2 : y.toNat < z.toNat
          · rw [if_pos (by omega)]
          · rw [if_neg h2] at hbc
            by_cases h3 : y.toNat = z.toNat
            · rw [if_pos (by omega : x.toNat < z.toNat)]
            · rw [if_neg h3] at hbc
              exact absurd hbc (by simp)
        · rw [if_neg h1] at hab
          by_cases h4 : x.toNat = y.toNat
          · rw [if_pos h4] at hab
            by_cases h2 : y.toNat < z.toNat
            · rw [if_pos (by omega)]
            · by_cases h3 : y.toNat = z.toNat
              · rw [if_neg h2, if_pos h3] at hbc
                rw [if_neg (by omega : ¬ x.toNat < z.toNat),
                  if_pos (by omega : x.toNat = z.toNat)]
                exact ih ys zs hab hbc
              · rw [if_neg h2, if_neg h3] at hbc
                exact absurd hbc (by simp)
          · rw [if_neg h4] at hab
            exact absurd hab (by simp)

theorem ltChars_total :
    ∀ (a b : List Char), a = b ∨ ltChars a b = true ∨ ltChars b a = true := by
  intro a
  induction a with
  | nil =>
    intro b
    cases b with
    | nil => exact Or.inl rfl
    | cons y ys => exact Or.inr (Or.inl (by simp [ltChars]))
  | cons x xs ih =>
    intro b
    cases b with
    | nil => exact Or.inr (Or.inr (by simp [ltChars]))
    | cons y ys =>
      by_cases h1 : x.toNat < y.toNat
      · exact Or.inr (Or.inl (by rw [ltChars, if_pos h1]))
      · by_cases h2 : y.toNat < x.toNat
        · exact Or.inr (Or.inr (by rw [ltChars, if_pos h2]))
        · have hxy : x = y := by
            have hn : x.toNat = y.toNat := by omega
            calc x = Char.ofNat x.toNat := (Char.ofNat_toNat x).symm
              _ = Char.ofNat y.toNat := by rw [hn]
              _ = y := Char.ofNat_toNat y
          subst hxy
          rcases ih ys with hEq | hlt | hgt
          · exact Or.inl (by rw [hEq])
          · exact Or.inr (Or.inl (by rw [ltChars, if_neg (by omega), if_pos rfl]; exact hlt))
          · exact Or.inr (Or.inr (by rw [ltChars, if_neg (by omega), if_pos rfl]; exact hgt))

theorem ltStr_trans (a b c : String) (hab : ltStr a b = true) (hbc : ltStr b c = true) :
    ltStr a c = true :=
  ltChars_trans a.data b.data c.data hab hbc

theorem ltStr_total (a b : String) : a = b ∨ ltStr a b = true ∨ ltStr b a = true := by
  rcases ltChars_total a.data b.data with hEq | h | h
  · left
    cases a
    cases b
    exact congrArg String.mk hEq
  · exact Or.inr (Or.inl h)
  · exact Or.inr (Or.inr h)

theorem insertNoDup_mem :
    ∀ (l : List String) (x u : String), u ∈ insertNoDup x l ↔ u = x ∨ u ∈ l := by
  intro l
  induction l with
  | nil => intro x u; simp [insertNoDup]
  | cons y ys ih =>
    intro x u
    rw [insertNoDup]
    by_cases hxy : x = y
    · subst hxy
      rw [if_pos rfl]
      simp only [List.mem_cons]
      tauto
    · rw [if_neg hxy]
      by_cases hlt : ltStr x y = true
      · rw [if_pos hlt]
        simp only [List.mem_cons]
      · rw [if_neg hlt]
        simp only [List.mem_cons, ih x u]
        tauto

theorem insertNoDup_sorted :
    ∀ (l : List String),
      l.Pairwise (fun a b => ltStr a b = true) →
      ∀ x, (insertNoDup x l).Pairwise (fun a b => ltStr a b = true) := by
  intro l
  induction l with
  | nil => intro _ x; simp [insertNoDup]
  | cons y ys ih =>
    intro hp x
    rw [List.pairwise_cons] at hp
    obtain ⟨hy, hys⟩ := hp
    rw [insertNoDup]
    by_cases hxy : x = y
    · rw [if_pos hxy]
      exact List.pairwise_cons.mpr ⟨hy, hys⟩
    · rw [if_neg hxy]
      by_cases hlt : ltStr x y = true
      · rw [if_pos hlt]
        refine List.pairwise_cons.mpr ⟨?_, List.pairwise_cons.mpr ⟨hy, hys⟩⟩
        intro b hb
        rcases List.mem_cons.mp hb with hb' | hb'
        · subst hb'; exact hlt
        · exact ltStr_trans x y b hlt (hy b hb')
      · rw [if_neg hlt]
        have hyx : ltStr y x = true := by
          rcases ltStr_total x y with hEq | h | h
          · exact absurd hEq hxy
          · exact absurd h hlt
          · exact h
        refine List.pairwise_cons.mpr ⟨?_, ih hys x⟩
        intro b hb
        rcases (insertNoDup_mem ys x b).mp hb with hb' | hb'
        · subst hb'; exact hyx
        · exact hy b hb'

theorem sortedSet_sorted (l : List String) :
    (sortedSet l).Pairwise (fun a b => ltStr a b = true) := by
  induction l with
  | nil => simp [sortedSet]
  | cons x xs ih =>
    have : sortedSet (x :: xs) = insertNoDup x (sortedSet xs) := rfl
    rw [this]
    exact insertNoDup_sorted (sortedSet xs) ih x

theorem sortedSet_mem (l : List String) (u : String) : u ∈ sortedSet l ↔ u ∈ l := by
  induction l with
  | nil => simp [sortedSet]
  | cons x xs ih =>
    have : sortedSet (x :: xs) = insertNoDup x (sortedSet xs) := rfl
    rw [this, insertNoDup_mem, ih]
    simp

/-! ## Claim C7 -/

/-- C7 as stated is false on the code: the processing order is not the
discovery (insertion) order.  `scrape_companies` builds the link list
with `sorted(set(hrefs))`, so for anchors discovered in the order
bravo, alpha, the records are processed alpha first — the list differs
from the discovery-order dedup the spec describes. -/
theorem C7_processing_order_counterexample :
    collectListingLinks orderRaws =
      ["https://www.ycombinator.com/companies/alpha",
       "https://www.ycombinator.com/companies/bravo"]
    ∧ specDiscoveryOrderLinks orderRaws =
      ["https://www.ycombinator.com/companies/bravo",
       "https://www.ycombinator.com/companies/alpha"]
    ∧ collectListingLinks orderRaws ≠ specDiscoveryOrderLinks orderRaws := by
  refine ⟨by decide, by decide, by decide⟩

/-- C7 (amended): deduplication does keep the first occurrence of each
identityKey within Pass 1's input sequence, and that first occurrence
establishes the record's position — but the sequence Pass 1 processes
is the lexicographically sorted list of distinct accepted hrefs
produced by `sorted(set(hrefs))`, not the discovery order: the
collected listing links are strictly increasing and contain exactly the
accepted normalized hrefs. -/
theorem C7_processing_order_amended :
    (∀ links : List RawLink,
      (firstPass links).companies.map (fun c => c.url) =
        dedupKF ∅ (links.filterMap acceptedUrl))
    ∧ (∀ raws : List (Option String),
        (collectListingLinks raws).Pairwise (fun a b => ltStr a b = true))
    ∧ (∀ (raws : List (Option String)) (u : String),
        u ∈ collectListingLinks raws ↔ u ∈ raws.filterMap listingAcceptNorm) := by
  refine ⟨firstPass_urls, ?_, ?_⟩
  · intro raws
    exact sortedSet_sorted (raws.filterMap listingAcceptNorm)
  · intro raws u
    exact sortedSet_mem (raws.filterMap listingAcceptNorm) u

/-! ## Founder dedup -/

theorem findEntry_eq_none :
    ∀ (m : List (String × Founder)) (key : String),
      findEntry m key = none → key ∉ m.map (fun p => p.1) := by
  intro m
  induction m with
  | nil => intro key _; simp
  | cons p rest ih =>
    intro key hnone
    rw [findEntry] at hnone
    by_cases hp : p.1 = key
    · rw [if_pos hp] at hnone
      exact absurd hnone (by simp)
    · rw [if_neg hp] at hnone
      simp only [List.map_cons, List.mem_cons]
      push_neg
      exact ⟨fun hEq => hp hEq.symm, ih key hnone⟩

theorem dedupSet_keys (m : List (String × Founder)) (key : String) (f : Founder) :
    (dedupSet m key f).map (fun p => p.1) = m.map (fun p => p.1) := by
  unfold dedupSet
  rw [List.map_map]
  apply List.map_congr_left
  intro p _
  by_cases h : p.1 = key
  · simp [h]
  · simp [h]

theorem dedupSet_mem (m : List (String × Founder)) (key : String) (f : Founder) :
    ∀ q ∈ dedupSet m key f, q ∈ m ∨ q = (key, f) := by
  intro q hq
  unfold dedupSet at hq
  obtain ⟨p, hp, hpq⟩ := List.mem_map.mp hq
  by_cases h : p.1 = key
  · rw [if_pos h] at hpq
    exact Or.inr hpq.symm
  · rw [if_neg h] at hpq
    exact Or.inl (hpq ▸ hp)

theorem dedupFold_invariant :
    ∀ (fs : List Founder) (m : List (String × Founder)),
      (m.map (fun p => p.1)).Nodup →
      (∀ p ∈ m, p.2.linkedin_url = "" ∨ p.2.linkedin_url = p.1) →
      (∀ f ∈ fs, pyStrip f.linkedin_url = f.linkedin_url) →
      ((dedupFold m fs).map (fun p => p.1)).Nodup
      ∧ (∀ p ∈ dedupFold m fs, p.2.linkedin_url = "" ∨ p.2.linkedin_url = p.1) := by
  intro fs
  induction fs with
  | nil => intro m h1 h2 _; exact ⟨h1, h2⟩
  | cons f rest ih =>
    intro m h1 h2 h3
    have hfurl : pyStrip f.linkedin_url = f.linkedin_url := h3 f (by simp)
    have h3rest : ∀ g ∈ rest, pyStrip g.linkedin_url = g.linkedin_url :=
      fun g hg => h3 g (by simp [hg])
    have hpair : ∀ key : String,
        key = founderKey f →
        ({ name := pyStrip f.name, linkedin_url := pyStrip f.linkedin_url } : Founder).linkedin_url = ""
        ∨ ({ name := pyStrip f.name, linkedin_url := pyStrip f.linkedin_url } : Founder).linkedin_url = key := by
      intro key hkey
      by_cases hurl : f.linkedin_url = ""
      · left
        show pyStrip f.linkedin_url = ""
        rw [hfurl, hurl]
      · right
        show pyStrip f.linkedin_url = key
        rw [hfurl, hkey]
        unfold founderKey
        rw [if_pos hurl]
    rw [dedupFold]
    by_cases hkey0 : founderKey f = ""
    · rw [if_pos hkey0]
      exact ih m h1 h2 h3rest
    · rw [if_neg hkey0]
      split
      next hfind =>
        have hnotin : founderKey f ∉ m.map (fun p => p.1) := findEntry_eq_none m _ hfind
        apply ih
        · simp only [List.map_append, List.map_cons, List.map_nil]
          rw [List.nodup_append]
          exact ⟨h1, List.nodup_singleton _, by simpa using hnotin⟩
        · intro p hp
          rcases List.mem_append.mp hp with hp' | hp'
          · exact h2 p hp'
          · have : p = (founderKey f,
                { name := pyStrip f.name, linkedin_url := pyStrip f.linkedin_url }) := by
              simpa using hp'
            subst this
            exact hpair _ rfl
        · exact h3rest
      next g hfind =>
        by_cases hcond : g.name = "" ∧ f.name ≠ ""
        · rw [if_pos hcond]
          apply ih
          · rw [dedupSet_keys]
            exact h1
          · intro p hp
            rcases dedupSet_mem m _ _ p hp with hp' | hp'
            · exact h2 p hp'
            · subst hp'
              exact hpair _ rfl
          · exact h3rest
        · rw [if_neg hcond]
          exact ih m h1 h2 h3rest

theorem valsUrls_nodup :
    ∀ m : List (String × Founder),
      (m.map (fun p => p.1)).Nodup →
      (∀ p ∈ m, p.2.linkedin_url = "" ∨ p.2.linkedin_url = p.1) →
      (((m.map (fun p => p.2)).filter (fun f => f.linkedin_url != "")).map
        (fun f => f.linkedin_url)).Nodup := by
  intro m
  induction m with
  | nil => intro _ _; simp
  | cons p rest ih =>
    intro h1 h2
    rw [List.map_cons] at h1 ⊢
    rw [List.nodup_cons] at h1
    obtain ⟨hkey, hkeys⟩ := h1
    have ihres := ih hkeys (fun q hq => h2 q (by simp [hq]))
    by_cases hurl : p.2.linkedin_url = ""
    · rw [List.filter_cons]
      rw [if_neg (by simp [hurl])]
      exact ihres
    · have hurl2 : p.2.linkedin_url = p.1 := by
        rcases h2 p (by simp) with h | h
        · exact absurd h hurl
        · exact h
      rw [List.filter_cons, if_pos (by simpa using hurl)]
      rw [List.map_cons]
      rw [List.nodup_cons]
      refine ⟨?_, ihres⟩
      intro hmem
      obtain ⟨g, hg, hgu⟩ := List.mem_map.mp hmem
      have hg2 := List.mem_filter.mp hg
      obtain ⟨q, hq, hq2⟩ := List.mem_map.mp hg2.1
      have hgne : g.linkedin_url ≠ "" := by simpa using hg2.2
      have hgq : g.linkedin_url = q.1 := by
        rcases h2 q (by simp [hq]) with h | h
        · rw [hq2] at h
          exact absurd h hgne
        · rw [hq2] at h
          exact h
      apply hkey
      rw [← hurl2, ← hgu, hgq]
      exact List.mem_map.mpr ⟨q, hq, rfl⟩

/-! ## Claim C8 -/

/-- C8: the founder extractor caps its result at 5 entries; among
result entries carrying a (normalized, hence whitespace-stripped)
profile URL no two share that URL — deduplication is by the normalized
URL key (entries without a URL fall back to the name key); and two
anchors whose profile URLs differ in trailing slash, scheme and
subdomain but share the same normalized form yield exactly one entry. -/
theorem C8_founder_dedup :
    (∀ fs : List Founder, (dedupFounders fs).length ≤ 5)
    ∧ (∀ fs : List Founder,
        (∀ f ∈ fs, pyStrip f.linkedin_url = f.linkedin_url) →
        (((dedupFounders fs).filter (fun f => f.linkedin_url != "")).map
          (fun f => f.linkedin_url)).Nodup)
    ∧ extractFoundersFromAnchors founderScenAnchors =
        [{ name := "John Doe", linkedin_url := "https://www.linkedin.com/in/john-doe" }] := by
  refine ⟨?_, ?_, by decide⟩
  · intro fs
    unfold dedupFounders
    rw [List.length_take]
    omega
  · intro fs hfs
    have hinv := dedupFold_invariant fs [] (by simp) (by simp) hfs
    have hbig := valsUrls_nodup (dedupFold [] fs) hinv.1 hinv.2
    have hsub : List.Sublist (dedupFounders fs) ((dedupFold [] fs).map (fun p => p.2)) := by
      unfold dedupFounders
      exact (List.take_sublist 5 _).trans (List.filter_sublist _)
    have hsub2 := List.Sublist.map (fun f => f.linkedin_url)
      (List.Sublist.filter (fun f => f.linkedin_url != "") hsub)
    exact List.Nodup.sublist hsub2 hbig

/-- Witness for C8's hypothesis-bearing conjunct at a concrete input:
two distinct already-normalized profile URLs stay distinct, one entry
each. -/
theorem C8_founder_dedup_witness :
    (((dedupFounders
        [ { name := "Ann Lee", linkedin_url := "https://www.linkedin.com/in/ann-lee" }
        , { name := "Bo Chen", linkedin_url := "https://www.linkedin.com/in/bo-chen" } ]).filter
        (fun f => f.linkedin_url != "")).map (fun f => f.linkedin_url)).Nodup :=
  C8_founder_dedup.2.1
    [ { name := "Ann Lee", linkedin_url := "https://www.linkedin.com/in/ann-lee" }
    , { name := "Bo Chen", linkedin_url := "https://www.linkedin.com/in/bo-chen" } ]
    (by decide)

/-! ## Description fallback -/

theorem bestStep_fold_spec :
    ∀ (name : String) (ps : List String) (b : String),
      (ps.foldl (bestStep name) b = b
        ∨ (ps.foldl (bestStep name) b ∈ ps
           ∧ isDescriptionParagraph (ps.foldl (bestStep name) b) name = true
           ∧ 0 < scoreDescription (ps.foldl (bestStep name) b) name))
      ∧ b.length ≤ (ps.foldl (bestStep name) b).length
      ∧ (∀ t ∈ ps, isDescriptionParagraph t name = true → 0 < scoreDescription t name →
          t.length ≤ (ps.foldl (bestStep name) b).length) := by
  intro name ps
  induction ps with
  | nil => intro b; exact ⟨Or.inl rfl, le_refl _, by simp⟩
  | cons t rest ih =>
    intro b
    rw [List.foldl_cons]
    obtain ⟨ih1, ih2, ih3⟩ := ih (bestStep name b t)
    have hb : b.length ≤ (bestStep name b t).length := by
      unfold bestStep
      split_ifs with hc
      · exact Nat.le_of_lt hc.2.2
      · exact le_refl _
    refine ⟨?_, le_trans hb ih2, ?_⟩
    · rcases ih1 with hEq | ⟨hmem, hq1, hq2⟩
      · rw [hEq]
        unfold bestStep
        split_ifs with hc
        · exact Or.inr ⟨by simp, hc.1, hc.2.1⟩
        · exact Or.inl rfl
      · exact Or.inr ⟨List.mem_cons_of_mem t hmem, hq1, hq2⟩
    · intro t' ht' hq hs
      rcases List.mem_cons.mp ht' with hEq | ht''
      · subst hEq
        have hstep : t'.length ≤ (bestStep name b t').length := by
          unfold bestStep
          split_ifs with hc
          · exact le_refl _
          · have hnlt : ¬ b.length < t'.length := fun hlt => hc ⟨hq, hs, hlt⟩
            omega
        exact le_trans hstep ih2
      · exact ih3 t' ht'' hq hs

/-! ## Claim C9 -/

/-- C9 as stated is false on the code: the scored fallback does not
select the highest-scoring paragraph.  Both paragraphs on the page
qualify, the first scores 6 and the second scores 1, yet the extractor
returns the second, because the fallback keeps the longest
positive-scoring paragraph (`len(text) > len(best_description)`), not
the best-scoring. -/
theorem C9_description_counterexample :
    isDescriptionParagraph acmeParagraph "Acme" = true
    ∧ isDescriptionParagraph longParagraph "Acme" = true
    ∧ scoreDescription longParagraph "Acme" < scoreDescription acmeParagraph "Acme"
    ∧ extractMainDescription scoreDescPage "Acme" = longParagraph
    ∧ extractMainDescription scoreDescPage "Acme" ≠ acmeParagraph := by
  refine ⟨by decide, by decide, by decide, by decide, by decide⟩

/-- C9 (amended): the description cascade tries (a) the meta
description when long enough and not boilerplate-prefixed, then (b)
the container scan, then (c) a scored fallback over all paragraphs
where score = +2 if the company name appears, +3 if any action verb
appears, +1 if any business-noun keyword appears (once, not per
keyword), and -2 if any boilerplate phrase appears; among the
paragraphs passing the minimum-length/keyword/non-boilerplate gate
with positive score, the fallback selects the LONGEST (earliest on
ties), not the highest-scoring.  The scenario holds: with no meta
description and the single paragraph "Acme builds an AI platform that
automates invoicing for enterprises.", that paragraph scores 6 > 0 and
is selected. -/
theorem C9_description_amended :
    (extractMainDescription scenDescPage "Acme" = acmeParagraph
     ∧ scoreDescription acmeParagraph "Acme" = 6
     ∧ 0 < scoreDescription acmeParagraph "Acme")
    ∧ (∀ (page : DescPage) (name c : String),
        page.metaDescription = some c → metaDescOk (pyStrip c) = true →
        extractMainDescription page name = cleanSentence (pyStrip c))
    ∧ (∀ (name : String) (ps : List String),
        bestScoredParagraph name ps = ""
        ∨ (bestScoredParagraph name ps ∈ ps
           ∧ isDescriptionParagraph (bestScoredParagraph name ps) name = true
           ∧ 0 < scoreDescription (bestScoredParagraph name ps) name
           ∧ (∀ t ∈ ps, isDescriptionParagraph t name = true →
               0 < scoreDescription t name →
               t.length ≤ (bestScoredParagraph name ps).length)))
    ∧ (∀ (name : String) (ps : List String),
        extractMainDescriptionBody
          { metaDescription := none, mainContainers := [], allParagraphs := ps } name =
          if bestScoredParagraph name ps = "" then ""
          else cleanSentence (bestScoredParagraph name ps))
    ∧ scoreDescription longParagraph "Acme" = 1 := by
  refine ⟨⟨by decide, by decide, by decide⟩, ?_, ?_, ?_, by decide⟩
  · intro page name c hmeta hok
    simp [extractMainDescription, hmeta, hok]
  · intro name ps
    by_cases hres : bestScoredParagraph name ps = ""
    · exact Or.inl hres
    · right
      obtain ⟨h1, _, h3⟩ := bestStep_fold_spec name ps ""
      unfold bestScoredParagraph at hres ⊢
      rcases h1 with hEq | ⟨hmem, hq1, hq2⟩
      · exact absurd hEq hres
      · exact ⟨hmem, hq1, hq2, h3⟩
  · intro name ps
    rfl

/-- Witness for C9's amended theorem: the meta-description branch at a
concrete page. -/
theorem C9_description_amended_witness :
    extractMainDescription
      { metaDescription := some "Acme is a platform that builds invoicing automation for teams."
      , mainContainers := [], allParagraphs := [] } "Acme"
      = cleanSentence (pyStrip "Acme is a platform that builds invoicing automation for teams.") :=
  C9_description_amended.2.1
    { metaDescription := some "Acme is a platform that builds invoicing automation for teams."
    , mainContainers := [], allParagraphs := [] }
    "Acme" "Acme is a platform that builds invoicing automation for teams." rfl (by decide)

/-! ## URL normalization idempotence -/

theorem stripHashQueryChars_id :
    ∀ l : List Char, (∀ c ∈ l, c ≠ '#' ∧ c ≠ '?') → stripHashQueryChars l = l := by
  intro l
  induction l with
  | nil => intro _; rfl
  | cons c rest ih =>
    intro h
    rw [stripHashQueryChars]
    rw [if_neg (by have := h c (by simp); tauto)]
    rw [ih (fun c' hc' => h c' (by simp [hc']))]

theorem rstripSlashChars_concat (l : List Char) (c : Char) (hc : c ≠ '/') :
    rstripSlashChars (l ++ [c]) = l ++ [c] := by
  unfold rstripSlashChars
  rw [List.reverse_append]
  simp only [List.reverse_cons, List.reverse_nil, List.nil_append, List.singleton_append]
  rw [List.dropWhile_cons]
  rw [if_neg (by simp [hc])]
  simp

theorem isSlugChar_facts (c : Char) (h : isSlugChar c = true) :
    c ≠ '#' ∧ c ≠ '?' ∧ c ≠ '/' ∧ c ≠ '\n' := by
  refine ⟨?_, ?_, ?_, ?_⟩ <;> intro hEq <;> rw [hEq] at h <;> exact absurd h (by decide)

theorem ycPre_no_hash : ∀ c ∈ ycCompaniesPre.data, c ≠ '#' ∧ c ≠ '?' := by decide

theorem strictCoreChars_decomp (l : List Char) (h : strictCoreChars l = true) :
    ∃ rest : List Char,
      l = ycCompaniesPre.data ++ rest ∧ rest ≠ [] ∧ ∀ c ∈ rest, isSlugChar c = true := by
  unfold strictCoreChars at h
  rw [Bool.and_eq_true, Bool.and_eq_true] at h
  obtain ⟨hpre, hne, hall⟩ := h
  have hprefix : ycCompaniesPre.data <+: l := List.isPrefixOf_iff_prefix.mp hpre
  obtain ⟨rest, hrest⟩ := hprefix
  have hdrop : l.drop ycCompaniesPre.data.length = rest := by
    rw [← hrest]
    exact List.drop_left _ _
  refine ⟨rest, hrest.symm, ?_, ?_⟩
  · rw [hdrop] at hne
    exact of_decide_eq_true hne
  · rw [hdrop] at hall
    intro c hc
    exact List.all_eq_true.mp hall c hc

theorem startsWith_slash_false (s : String) (hh : s.data.head? = some 'h') :
    startsWithStr s "/" = false := by
  unfold startsWithStr
  cases hdata : s.data with
  | nil => rw [hdata] at hh; simp at hh
  | cons c cs =>
    rw [hdata] at hh
    simp only [List.head?_cons, Option.some.injEq] at hh
    subst hh
    simp [List.isPrefixOf]

theorem normalizeFP_fixed (v : String) (h : strictCompanyUrl v = true) :
    normalizeFP v = v := by
  unfold strictCompanyUrl strictCompanyUrlChars at h
  have hpreHead : ycCompaniesPre.data.head? = some 'h' := by decide
  have hpreNe : ycCompaniesPre.data ≠ [] := by decide
  by_cases hlast : v.data.getLast? = some '\n'
  · rw [if_pos hlast] at h
    obtain ⟨rest, hdecomp, hne, hslug⟩ := strictCoreChars_decomp _ h
    have hvne : v.data ≠ [] := by
      intro h0
      rw [h0] at hlast
      simp at hlast
    have hgl : v.data.getLast hvne = '\n' := by
      rw [List.getLast?_eq_getLast _ hvne] at hlast
      exact Option.some.inj hlast
    have hsplit : v.data = v.data.dropLast ++ ['\n'] := by
      conv_lhs => rw [← List.dropLast_append_getLast hvne]
      rw [hgl]
    have hshape : v.data = ycCompaniesPre.data ++ (rest ++ ['\n']) := by
      rw [hsplit, hdecomp, List.append_assoc]
    have hchars : ∀ c ∈ v.data, c ≠ '#' ∧ c ≠ '?' := by
      intro c hc
      rw [hshape] at hc
      rcases List.mem_append.mp hc with hc' | hc'
      · exact ycPre_no_hash c hc'
      · rcases List.mem_append.mp hc' with hc'' | hc''
        · have := isSlugChar_facts c (hslug c hc'')
          tauto
        · have : c = '\n' := by simpa using hc''
          subst this
          exact ⟨by decide, by decide⟩
    have hhead : v.data.head? = some 'h' := by
      rw [hshape, List.head?_append_of_ne_nil _ hpreNe]
      exact hpreHead
    have hstart : startsWithStr v "/" = false := startsWith_slash_false v hhead
    have hsq : stripHashQueryChars v.data = v.data := stripHashQueryChars_id _ hchars
    have hrs : rstripSlashChars v.data = v.data := by
      rw [hsplit]
      exact rstripSlashChars_concat _ _ (by decide)
    unfold normalizeFP
    simp only [hstart, Bool.false_eq_true, if_false]
    unfold stripHashQuery
    rw [hsq]
    unfold pyRstripSlash
    rw [hrs]
  · rw [if_neg hlast] at h
    obtain ⟨rest, hdecomp, hne, hslug⟩ := strictCoreChars_decomp _ h
    rcases List.eq_nil_or_concat rest with hnil | ⟨r', c, hconcat⟩
    · exact absurd hnil hne
    rw [List.concat_eq_append] at hconcat
    have hshape : v.data = (ycCompaniesPre.data ++ r') ++ [c] := by
      rw [hdecomp, hconcat, List.append_assoc]
    have hcslug : isSlugChar c = true := hslug c (by simp [hconcat])
    have hchars : ∀ x ∈ v.data, x ≠ '#' ∧ x ≠ '?' := by
      intro x hx
      rw [hdecomp] at hx
      rcases List.mem_append.mp hx with hx' | hx'
      · exact ycPre_no_hash x hx'
      · have := isSlugChar_facts x (hslug x hx')
        tauto
    have hhead : v.data.head? = some 'h' := by
      rw [hdecomp, List.head?_append_of_ne_nil _ hpreNe]
      exact hpreHead
    have hstart : startsWithStr v "/" = false := startsWith_slash_false v hhead
    have hsq : stripHashQueryChars v.data = v.data := stripHashQueryChars_id _ hchars
    have hrs : rstripSlashChars v.data = v.data := by
      rw [hshape]
      exact rstripSlashChars_concat _ _ (isSlugChar_facts c hcslug).2.2.1
    unfold normalizeFP
    simp only [hstart, Bool.false_eq_true, if_false]
    unfold stripHashQuery
    rw [hsq]
    unfold pyRstripSlash
    rw [hrs]

/-! ## Claim C10 -/

/-- C10: the Pass-1 normalizer is idempotent on accepted URLs — when
`normalizeAccept u` accepts `u` with identity key `v`, normalizing `v`
again accepts it unchanged: the accepted form starts with the fixed
https prefix (so it is not re-absolutized), contains no query or
fragment characters, and ends in a slug character or a final newline
(so nothing is stripped), and it still matches the strict pattern. -/
theorem C10_normalize_idempotent :
    ∀ u v : String, normalizeAccept u = some v → normalizeAccept v = some v := by
  intro u v h
  unfold normalizeAccept at h
  by_cases hstrict : strictCompanyUrl (normalizeFP u) = true
  · rw [if_pos hstrict] at h
    have hv := Option.some.inj h
    subst hv
    unfold normalizeAccept
    rw [normalizeFP_fixed _ hstrict, if_pos hstrict]
  · rw [if_neg hstrict] at h
    exact absurd h (by simp)

/-- Witness for C10 at a concrete accepted URL. -/
theorem C10_normalize_idempotent_witness :
    normalizeAccept "https://www.ycombinator.com/companies/acme" =
      some "https://www.ycombinator.com/companies/acme" :=
  C10_normalize_idempotent "https://www.ycombinator.com/companies/acme/"
    "https://www.ycombinator.com/companies/acme" (by decide)

end YCRobust


